import Mathlib

/-!
Verification of the comment-thread assembly, storage-path handling and
comment-submission logic of the storefront repository.

The embedding translates the TypeScript sources:
  * `buildCommentThreads`, `CommentList` (handlers) from
    `src/components/ui/Tabs.tsx`;
  * `handleUploadProof`, `handleDeleteProof` from
    `src/pages/admin/AdminProofsManager.tsx`;
  * `deleteImage` from `src/pages/admin/AdminImagesManager.tsx`;
  * `deleteStoredImage` from `src/pages/admin/AdminServicesManager.tsx`.

Numbers are modelled by `Int` (ids and timestamp values); the timestamp
carried by a comment is the value `new Date(created_at).getTime()` used by
the code's comparator.  JavaScript truthiness on numbers (`0` is falsy) and
on strings (`""` is falsy) is modelled explicitly where the code relies
on it.
-/

/-- A row of the `comments` table as fetched by `CommentList`
(`DbComment` in `Tabs.tsx`).  Only the fields that the thread-assembly
algorithm inspects are kept: `id`, `parent_comment_id` and the timestamp
value of `created_at`; the remaining payload fields (`content`, `user_id`,
`profiles`, …) are copied unchanged by the algorithm and do not influence
placement or ordering. -/
structure DbComment where
  id : Int
  parent_comment_id : Option Int
  created_at : Int
deriving DecidableEq, Repr

/-- `commentMap[p]` is defined after the first pass iff some input comment
has id `p`. -/
def hasId (comments : List DbComment) (p : Int) : Prop :=
  ∃ c ∈ comments, c.id = p

instance (comments : List DbComment) (p : Int) : Decidable (hasId comments p) := by
  unfold hasId; infer_instance

/-- The node stored in `commentMap` under an id: JavaScript object-key
assignment in the first pass makes the LAST record with a given id win. -/
def lookupLast (comments : List DbComment) (i : Int) : Option DbComment :=
  (comments.filter (fun c => c.id = i)).getLast?

/-- The test `comment.parent_comment_id && commentMap[comment.parent_comment_id]`
of the second pass: the parent id must be truthy (non-null and nonzero) and
present in the map built from the whole input.  Returns the parent id a
comment is linked under, or `none` when the comment is pushed to the
roots. -/
def resolvedParent (comments : List DbComment) (c : DbComment) : Option Int :=
  match c.parent_comment_id with
  | none => none
  | some p => if p ≠ 0 ∧ hasId comments p then some p else none

/-- The sort key of a node: `new Date(node.created_at).getTime()`, where the
node under id `i` is `commentMap[i]` (the last input record with that id).
The default `0` is never used on ids present in the map. -/
def keyOf (comments : List DbComment) (i : Int) : Int :=
  match lookupLast comments i with
  | some c => c.created_at
  | none => 0

/-- Insertion step of a stable descending sort: the element `i` is placed
before the first element whose key is not greater than `key i`. -/
def insertDesc (key : Int → Int) (i : Int) : List Int → List Int
  | [] => [i]
  | j :: l => if key i < key j then j :: insertDesc key i l else i :: j :: l

/-- Model of `Array.prototype.sort(sortByDate)` with the comparator
`(a, b) => time(b) - time(a)` from `buildCommentThreads`: ECMAScript sort is
stable and consistent with the comparator, so it is the (unique) stable
descending sort by the timestamp key. -/
def jsSortByDate (comments : List DbComment) (l : List Int) : List Int :=
  l.foldr (insertDesc (keyOf comments)) []

/-- One step of the second pass of `buildCommentThreads`: the node of `c`
(represented by its id) is appended either to its resolved parent's
`replies` array or to `rootComments`.  The state is the pair
(root ids in push order, replies ids per parent id in push order). -/
def linkStep (comments : List DbComment) (st : List Int × (Int → List Int))
    (c : DbComment) : List Int × (Int → List Int) :=
  match resolvedParent comments c with
  | some p => (st.1, fun q => if q = p then st.2 q ++ [c.id] else st.2 q)
  | none => (st.1 ++ [c.id], st.2)

/-- The second pass of `buildCommentThreads`: a left fold of `linkStep` over
the input in order, starting from no roots and all-empty replies arrays
(the first pass initialises `replies: []` on every node). -/
def linkPass (comments : List DbComment) : List Int × (Int → List Int) :=
  comments.foldl (linkStep comments) ([], fun _ => [])

/-- The output of `buildCommentThreads`: the sorted list of root ids and,
for each id, its sorted `replies` list.  Together with `lookupLast` (the
node fields) this is the whole information content of the returned
structure, since nodes are shared per id. -/
structure Threads where
  roots : List Int
  replies : Int → List Int

/-- `buildCommentThreads` (Tabs.tsx, lines 136–160): first pass builds the
id-indexed map, second pass links children to parents or roots, final pass
sorts `rootComments` and every node's `replies` newest-first.  Sorting each
`replies` array pointwise is extensionally the loop over
`Object.values(commentMap)` (ids absent from the map have empty lists,
which sort to themselves). -/
def buildCommentThreads (comments : List DbComment) : Threads :=
  { roots := jsSortByDate comments (linkPass comments).1
    replies := fun p => jsSortByDate comments ((linkPass comments).2 p) }

/-- Preorder listing of the node occurrences of the forest rendered from a
root list: each occurrence of an id is followed by the traversal of its
`replies`.  The fuel bounds the depth; any fuel larger than the depth of
the forest lists it exactly. -/
def forestIds (replies : Int → List Int) : Nat → List Int → List Int
  | 0, _ => []
  | n + 1, l => l.flatMap (fun i => i :: forestIds replies n (replies i))

/-- The parent under which the node of id `i` is linked (via the record
that owns the node, i.e. the last input record with id `i`). -/
def parentOfId (comments : List DbComment) (i : Int) : Option Int :=
  match lookupLast comments i with
  | some c => resolvedParent comments c
  | none => none

/-- Distance from the node of id `i` to the top of its parent chain,
following `parentOfId` with the given fuel; `none` when the chain does not
terminate within the fuel.  With fuel `comments.length` this is total
exactly on acyclic inputs. -/
def rootDist (comments : List DbComment) : Nat → Int → Option Nat
  | 0, _ => none
  | n + 1, i =>
    match parentOfId comments i with
    | none => some 0
    | some p => (rootDist comments n p).map Nat.succ

/-- The strict ancestors of the node of id `i` in the linked structure:
its resolved parent, the parent's parent, …, up to the given fuel. -/
def parentsList (comments : List DbComment) : Nat → Int → List Int
  | 0, _ => []
  | n + 1, i =>
    match parentOfId comments i with
    | none => []
    | some p => p :: parentsList comments n p

/-- The ancestor chain of the node of id `i`, itself included. -/
def chain (comments : List DbComment) : Nat → Int → List Int
  | 0, _ => []
  | n + 1, i => i :: parentsList comments n i

/-- Number of occurrences of `i` in a list of ids. -/
def countOcc (i : Int) (l : List Int) : Nat :=
  (l.filter (fun j => decide (j = i))).length

/-! ### CommentList component state and handlers (Tabs.tsx) -/

/-- A node of the nested `Comment[]` state (`Comment extends DbComment` with
a `replies` array). -/
inductive CommentTree where
  | node : DbComment → List CommentTree → CommentTree

/-- The React state of `CommentList`: the nested comment threads and the
other `useState` cells declared at the top of the component. -/
structure CommentListState where
  comments : List CommentTree
  isLoading : Bool
  newComment : String
  isSubmitting : Bool
  isAnonymous : Bool
  replyingToCommentId : Option Int
  isAdmin : Bool

/-- Effects a `CommentList` event handler can perform. -/
inductive CLEffect where
  | consoleLog : String → CLEffect
  | setState : (CommentListState → CommentListState) → CLEffect
  | fetchAndAdd : Int → CLEffect

/-- Whether an effect writes component state. -/
def CLEffect.isStateUpdate : CLEffect → Bool
  | CLEffect.setState _ => true
  | _ => false

/-- Whether an effect is a `fetchAndAddComment` backend fetch. -/
def CLEffect.isFetch : CLEffect → Bool
  | CLEffect.fetchAndAdd _ => true
  | _ => false

/-- Run a list of effects over the component state.  Logging does not touch
state; a fetch effect's own later updates are not modelled (no handler in
scope emits one, which the theorems state separately). -/
def applyCLEffects (effs : List CLEffect) (st : CommentListState) : CommentListState :=
  effs.foldl
    (fun s e =>
      match e with
      | CLEffect.setState g => g s
      | _ => s)
    st

/-- The change-feed callback registered for `postgres_changes` INSERT events
on `comments` (Tabs.tsx lines 302–309): it logs the payload, binds
`newCommentData`, and logs again; the `fetchAndAddComment(newCommentData.id)`
call on line 307 is commented out. -/
def commentsChannelInsertHandler (_payload : DbComment) : List CLEffect :=
  [CLEffect.consoleLog "Real-time INSERT received:",
   CLEffect.consoleLog "[Debug] Real-time insert detected, auto-fetch disabled for now."]

/-- JavaScript `String.prototype.trim` whitespace set, restricted to the
characters that can occur here (ASCII whitespace, NBSP, BOM, and the line
separators). -/
def jsWhitespace (c : Char) : Bool :=
  c ∈ [' ', '\t', '\n', '\r', '\x0b', '\x0c', '\u00A0', '\uFEFF', '\u2028', '\u2029']

/-- Model of `String.prototype.trim`. -/
def jsTrim (s : String) : String :=
  String.mk (((s.toList.dropWhile jsWhitespace).reverse.dropWhile jsWhitespace).reverse)

/-- The text `handleSubmitComment` submits: for a reply, the value of the
`reply-input-<parentId>` textarea (`none` models a missing DOM element,
where `?.value` is `undefined`); otherwise the `newComment` state. -/
def submittedCommentText (parentId : Option Int) (replyInput : Option String)
    (st : CommentListState) : Option String :=
  match parentId with
  | some _ => replyInput
  | none => some st.newComment

/-- The guard `!commentText || !commentText.trim()` of `handleSubmitComment`:
true on `undefined`, the empty string, and whitespace-only strings. -/
def blankGuard : Option String → Bool
  | none => true
  | some t => t.isEmpty || (jsTrim t).isEmpty

/-- JavaScript truthiness on an optional numeric id, as used by
`...(categoryId ? { category_id: categoryId } : {})`: the field is attached
only when the id is present and nonzero. -/
def truthyIdOpt : Option Int → Option Int
  | some v => if v = 0 then none else some v
  | none => none

/-- The row handed to `supabase.from('comments').insert(...)`. -/
structure InsertCommentRow where
  content : String
  user_id : Option String
  parent_comment_id : Option Int
  category_id : Option Int
  item_id : Option Int
deriving DecidableEq, Repr

/-- `handleSubmitComment` (Tabs.tsx lines 361–419).  `user` is the auth
context's user id, `insertOk` models whether the backend insert succeeded
and returned the row.  The result is the final component state together
with the inserted row, or `none` when no insert was attempted.  The
transient `setIsSubmitting(true)` is followed unconditionally by
`setIsSubmitting(false)`, so the final state has `isSubmitting := false`
on every insert path; the DOM-level clearing of the reply textarea is
outside component state. -/
def handleSubmitComment (user : Option String) (categoryId itemId : Option Int)
    (parentId : Option Int) (replyInput : Option String) (insertOk : Bool)
    (st : CommentListState) : CommentListState × Option InsertCommentRow :=
  match submittedCommentText parentId replyInput st with
  | none => (st, none)
  | some t =>
    if t.isEmpty || (jsTrim t).isEmpty then (st, none)
    else
      let st1 := { st with isSubmitting := true }
      let postAnonymously :=
        user.isNone || (match parentId with | some _ => false | none => st.isAnonymous)
      let userIdToSend := if postAnonymously then none else user
      let row : InsertCommentRow :=
        { content := jsTrim t
          user_id := userIdToSend
          parent_comment_id := parentId
          category_id := truthyIdOpt categoryId
          item_id := truthyIdOpt itemId }
      let st2 := { st1 with isSubmitting := false }
      let st3 :=
        if insertOk then
          match parentId with
          | some _ => { st2 with replyingToCommentId := none }
          | none => { st2 with newComment := "", isAnonymous := false }
        else st2
      (st3, some row)

/-! ### Proof upload (AdminProofsManager.tsx) -/

/-- Backend calls made by `handleUploadProof`, in order. -/
inductive ProofUploadEffect where
  | storageUpload : String → ProofUploadEffect
  | getPublicUrl : String → ProofUploadEffect
  | dbInsert : String → Option String → ProofUploadEffect
  | storageRemove : List String → ProofUploadEffect
deriving DecidableEq, Repr

/-- `String.prototype.split` with a single-character separator, on the
character list: splitting the empty string gives one empty group. -/
def splitOnChar (sep : Char) : List Char → List (List Char)
  | [] => [[]]
  | c :: rest =>
    let r := splitOnChar sep rest
    if c = sep then [] :: r
    else
      match r with
      | [] => [[c]]
      | g :: gs => (c :: g) :: gs

/-- `s.split(sep)` for a one-character separator. -/
def jsSplitChar (s : String) (sep : Char) : List String :=
  (splitOnChar sep s.toList).map String.mk

/-- `parts.join(sep)`. -/
def jsJoin (sep : String) : List String → String
  | [] => ""
  | p :: ps => ps.foldl (fun acc q => acc ++ sep ++ q) p

/-- `s.startsWith(pre)`. -/
def strStartsWith (s pre : String) : Bool :=
  pre.toList.isPrefixOf s.toList

/-- `s.substring(n)` / `String.drop` on the character list (all prefixes
stripped here are ASCII, so UTF-16 units and characters agree). -/
def strDropChars (s : String) (n : Nat) : String :=
  String.mk (s.toList.drop n)

/-- `s.split(sep).pop()`: `String.prototype.split` never returns an empty
array, so `pop` is the last segment. -/
def lastSplitSegment (s : String) (sep : Char) : String :=
  (jsSplitChar s sep).getLastD ""

/-- `handleUploadProof` (AdminProofsManager.tsx lines 58–123), as the list
of backend effects it performs and whether it succeeds.  `fileName` is the
selected file's name (`none`: no file selected), `now` is `Date.now()`,
`uploadOk` / `publicUrl` / `insertOk` model the backend's answers to the
three calls, and `removeOk` models the outcome of the rollback
`storage.remove` — the code never reads it, its `await` result being
discarded. -/
def handleUploadProof (fileName : Option String) (proofDate : String) (now : Nat)
    (uploadOk : Bool) (publicUrl : Option String) (insertOk : Bool)
    (_removeOk : Bool) : List ProofUploadEffect × Bool :=
  match fileName with
  | none => ([], false)
  | some name =>
    let filePath := "proof-" ++ toString now ++ "." ++ lastSplitSegment name '.'
    if uploadOk = false then ([ProofUploadEffect.storageUpload filePath], false)
    else
      match publicUrl with
      | none =>
        ([ProofUploadEffect.storageUpload filePath,
          ProofUploadEffect.getPublicUrl filePath], false)
      | some url =>
        let insertEff := ProofUploadEffect.dbInsert url
          (if proofDate = "" then none else some proofDate)
        if insertOk then
          ([ProofUploadEffect.storageUpload filePath,
            ProofUploadEffect.getPublicUrl filePath, insertEff], true)
        else
          ([ProofUploadEffect.storageUpload filePath,
            ProofUploadEffect.getPublicUrl filePath, insertEff,
            ProofUploadEffect.storageRemove [filePath]], false)

/-! ### Storage object-path reconstruction (image deletion) -/

/-- Value of a hexadecimal digit (digits, then upper- and lower-case
letters, by character code). -/
def hexDigitVal (c : Char) : Option Nat :=
  let n := c.toNat
  if 48 ≤ n ∧ n ≤ 57 then some (n - 48)
  else if 65 ≤ n ∧ n ≤ 70 then some (n - 55)
  else if 97 ≤ n ∧ n ≤ 102 then some (n - 87)
  else none

/-- First phase of ECMAScript `decodeURIComponent`: each `%XX` escape
becomes the byte it denotes, other characters pass through; a `%` not
followed by two hexadecimal digits raises `URIError` (`none`). -/
def percentTokens : List Char → Option (List (Char ⊕ Nat))
  | [] => some []
  | '%' :: h :: l :: rest => do
    let hv ← hexDigitVal h
    let lv ← hexDigitVal l
    let t ← percentTokens rest
    pure (Sum.inr (16 * hv + lv) :: t)
  | '%' :: _ => none
  | c :: rest => (percentTokens rest).map (Sum.inl c :: ·)

/-- Second phase of `decodeURIComponent`: maximal runs of escaped bytes
must form valid (shortest-form, non-surrogate) UTF-8 and decode to the
corresponding code points; invalid sequences raise `URIError` (`none`). -/
def utf8Assemble : List (Char ⊕ Nat) → Option (List Char)
  | [] => some []
  | Sum.inl c :: rest => (utf8Assemble rest).map (c :: ·)
  | Sum.inr b :: rest =>
    if b < 0x80 then (utf8Assemble rest).map (Char.ofNat b :: ·)
    else if 0xC2 ≤ b ∧ b ≤ 0xDF then
      match rest with
      | Sum.inr b1 :: rest' =>
        if 0x80 ≤ b1 ∧ b1 ≤ 0xBF then
          (utf8Assemble rest').map (Char.ofNat ((b - 0xC0) * 64 + (b1 - 0x80)) :: ·)
        else none
      | _ => none
    else if 0xE0 ≤ b ∧ b ≤ 0xEF then
      match rest with
      | Sum.inr b1 :: Sum.inr b2 :: rest' =>
        if ((if b = 0xE0 then 0xA0 else 0x80) ≤ b1 ∧
              b1 ≤ (if b = 0xED then 0x9F else 0xBF)) ∧
            (0x80 ≤ b2 ∧ b2 ≤ 0xBF) then
          (utf8Assemble rest').map
            (Char.ofNat ((b - 0xE0) * 4096 + (b1 - 0x80) * 64 + (b2 - 0x80)) :: ·)
        else none
      | _ => none
    else if 0xF0 ≤ b ∧ b ≤ 0xF4 then
      match rest with
      | Sum.inr b1 :: Sum.inr b2 :: Sum.inr b3 :: rest' =>
        if ((if b = 0xF0 then 0x90 else 0x80) ≤ b1 ∧
              b1 ≤ (if b = 0xF4 then 0x8F else 0xBF)) ∧
            (0x80 ≤ b2 ∧ b2 ≤ 0xBF) ∧ (0x80 ≤ b3 ∧ b3 ≤ 0xBF) then
          (utf8Assemble rest').map
            (Char.ofNat ((b - 0xF0) * 262144 + (b1 - 0x80) * 4096 +
              (b2 - 0x80) * 64 + (b3 - 0x80)) :: ·)
        else none
      | _ => none
    else none

/-- Model of the ECMAScript `decodeURIComponent` builtin: percent-decoding
with UTF-8 reassembly; `none` models a thrown `URIError`. -/
def decodeURIComponent (s : String) : Option String :=
  (percentTokens s.toList).bind (fun t => (utf8Assemble t).map (fun l => String.mk l))

/-- `Array.prototype.indexOf` restricted to the found/not-found outcome:
index of the first strictly-equal element, `none` for `-1`. -/
def jsIndexOf (x : String) : List String → Option Nat
  | [] => none
  | a :: l => if a = x then some 0 else (jsIndexOf x l).map (· + 1)

/-- `segs.slice(segs.indexOf(x) + 1)`: the segments after the first
occurrence of `x`; when `indexOf` yields `-1`, `slice(0)` is the whole
list. -/
def jsSegmentsAfter (segs : List String) (x : String) : List String :=
  match jsIndexOf x segs with
  | some i => segs.drop (i + 1)
  | none => segs

/-- Object-path derivation of `deleteImage`
(AdminImagesManager.tsx lines 143–157), as a function of
`new URL(image.url).pathname`: the path after the bucket prefix when the
pathname starts with it, otherwise no path; the guard `if (filePath)`
skips the storage `remove` on the empty string. -/
def deleteImageObjectPath (pathname : String) : Option String :=
  let pathPfx := "/storage/v1/object/public/images/"
  if strStartsWith pathname pathPfx then
    let filePath := strDropChars pathname pathPfx.length
    if filePath = "" then none else some filePath
  else none

/-- Object-path derivation of `deleteStoredImage`
(AdminServicesManager.tsx lines 165–205), as a function of
`new URL(imageUrl).pathname`.  On the bucket-prefix match the remainder is
passed through `decodeURIComponent`; otherwise the fallback joins the
pathname's `/`-segments after the first occurrence of the bucket name and
decodes that.  A `URIError` is swallowed by the surrounding `try` and an
empty path fails the `if (filePath)` guard: both yield no `remove` call
(`none`). -/
def deleteStoredImageObjectPath (pathname : String) : Option String :=
  let pathPfx := "/storage/v1/object/public/programminglistbuckets/"
  let filePath? : Option String :=
    if strStartsWith pathname pathPfx then
      decodeURIComponent (strDropChars pathname pathPfx.length)
    else
      let potentialPath :=
        jsJoin "/" (jsSegmentsAfter (jsSplitChar pathname '/') "programminglistbuckets")
      if potentialPath = "" then none else decodeURIComponent potentialPath
  match filePath? with
  | some fp => if fp = "" then none else some fp
  | none => none

/-- Object-path derivation of `handleDeleteProof`
(AdminProofsManager.tsx lines 134–147), as a function of the full
`proof.image_url` string: `urlParts.slice(urlParts.indexOf('proof-images') + 1).join('/')`;
an empty result only logs a warning and skips the storage `remove`
(`none`). -/
def handleDeleteProofObjectPath (imageUrl : String) : Option String :=
  let urlParts := jsSplitChar imageUrl '/'
  let filePath := jsJoin "/" (jsSegmentsAfter urlParts "proof-images")
  if filePath = "" then none else some filePath

/-! ## Lemmas about the stable descending sort -/

theorem insertDesc_perm (key : Int → Int) (i : Int) :
    ∀ l : List Int, (insertDesc key i l).Perm (i :: l) := by
  intro l
  induction l with
  | nil => simp [insertDesc]
  | cons j l ih =>
    simp only [insertDesc]
    by_cases hc : key i < key j
    · rw [if_pos hc]
      exact (ih.cons j).trans (List.Perm.swap i j l)
    · rw [if_neg hc]

theorem jsSortByDate_perm (comments : List DbComment) (l : List Int) :
    (jsSortByDate comments l).Perm l := by
  induction l with
  | nil => simp [jsSortByDate]
  | cons j l ih =>
    simpa [jsSortByDate] using
      ((insertDesc_perm (keyOf comments) j (jsSortByDate comments l)).trans (ih.cons j))

theorem insertDesc_pairwise (key : Int → Int) (i : Int) :
    ∀ {l : List Int}, l.Pairwise (fun a b => key b ≤ key a) →
      (insertDesc key i l).Pairwise (fun a b => key b ≤ key a) := by
  intro l
  induction l with
  | nil => simp [insertDesc]
  | cons j l ih =>
    intro h
    rw [List.pairwise_cons] at h
    simp only [insertDesc]
    by_cases hc : key i < key j
    · rw [if_pos hc, List.pairwise_cons]
      refine ⟨fun b hb => ?_, ih h.2⟩
      rcases List.mem_cons.1 (((insertDesc_perm key i l).mem_iff).1 hb) with hb' | hb'
      · exact hb' ▸ le_of_lt hc
      · exact h.1 b hb'
    · rw [if_neg hc, List.pairwise_cons]
      refine ⟨fun b hb => ?_, List.pairwise_cons.2 h⟩
      rcases List.mem_cons.1 hb with hb' | hb'
      · exact hb' ▸ le_of_not_lt hc
      · exact le_trans (h.1 b hb') (le_of_not_lt hc)

theorem jsSortByDate_pairwise (comments : List DbComment) (l : List Int) :
    (jsSortByDate comments l).Pairwise
      (fun a b => keyOf comments b ≤ keyOf comments a) := by
  induction l with
  | nil => simp [jsSortByDate]
  | cons j l ih => exact insertDesc_pairwise (keyOf comments) j ih

/-! ## Characterisation of the linking pass -/

theorem foldl_linkStep_fst (comments : List DbComment) :
    ∀ (l : List DbComment) (acc : List Int) (f : Int → List Int),
      (l.foldl (linkStep comments) (acc, f)).1 =
        acc ++ (l.filter (fun c => (resolvedParent comments c).isNone)).map (·.id) := by
  intro l
  induction l with
  | nil => simp
  | cons c l ih =>
    intro acc f
    simp only [List.foldl_cons, linkStep]
    cases h : resolvedParent comments c with
    | some p => simp [ih, List.filter_cons, h]
    | none => simp [ih, List.filter_cons, h]

theorem foldl_linkStep_snd (comments : List DbComment) :
    ∀ (l : List DbComment) (acc : List Int) (f : Int → List Int) (p : Int),
      ((l.foldl (linkStep comments) (acc, f)).2) p =
        f p ++ (l.filter (fun c => decide (resolvedParent comments c = some p))).map (·.id) := by
  intro l
  induction l with
  | nil => simp
  | cons c l ih =>
    intro acc f p
    simp only [List.foldl_cons, linkStep]
    cases h : resolvedParent comments c with
    | some q =>
      rw [ih]
      by_cases hpq : p = q
      · subst hpq
        simp [List.filter_cons, h]
      · simp [List.filter_cons, h, hpq, Ne.symm hpq]
    | none => simp [ih, List.filter_cons, h]

theorem linkPass_fst (comments : List DbComment) :
    (linkPass comments).1 =
      (comments.filter (fun c => (resolvedParent comments c).isNone)).map (·.id) := by
  simpa [linkPass] using foldl_linkStep_fst comments comments [] (fun _ => [])

theorem linkPass_snd (comments : List DbComment) (p : Int) :
    (linkPass comments).2 p =
      (comments.filter (fun c => decide (resolvedParent comments c = some p))).map (·.id) := by
  simpa [linkPass] using foldl_linkStep_snd comments comments [] (fun _ => []) p

/-! ## Counting occurrences -/

theorem countOcc_nil (i : Int) : countOcc i [] = 0 := rfl

theorem countOcc_cons (i j : Int) (l : List Int) :
    countOcc i (j :: l) = (if j = i then 1 else 0) + countOcc i l := by
  simp only [countOcc, List.filter_cons]
  by_cases h : j = i
  · simp [h]; omega
  · simp [h]

theorem countOcc_append (i : Int) (l₁ l₂ : List Int) :
    countOcc i (l₁ ++ l₂) = countOcc i l₁ + countOcc i l₂ := by
  simp [countOcc, List.filter_append]

theorem countOcc_perm {l₁ l₂ : List Int} (h : l₁.Perm l₂) (i : Int) :
    countOcc i l₁ = countOcc i l₂ :=
  (h.filter _).length_eq

theorem countOcc_eq_zero {i : Int} {l : List Int} (h : ∀ j ∈ l, j ≠ i) :
    countOcc i l = 0 := by
  simp only [countOcc, List.length_eq_zero]
  exact List.filter_eq_nil_iff.2 (by simpa using h)

theorem countOcc_flatMap (i : Int) (f : Int → List Int) :
    ∀ l : List Int, countOcc i (l.flatMap f) = (l.map (fun x => countOcc i (f x))).sum := by
  intro l
  induction l with
  | nil => simp [countOcc]
  | cons a l ih => simp [List.flatMap_cons, countOcc_append, ih]

theorem countOcc_map_id (i : Int) (l : List DbComment) :
    countOcc i (l.map (·.id)) = (l.filter (fun c => decide (c.id = i))).length := by
  simp only [countOcc, List.filter_map]
  rw [List.length_map]
  rfl

/-- Under pairwise-distinct ids, the records with a given id are exactly
the content of `lookupLast`, so any further filtering keeps at most that
one record. -/
theorem length_filter_id_of_nodup (g : DbComment → Bool) (i : Int) :
    ∀ comments : List DbComment, (comments.map (·.id)).Nodup →
      (comments.filter (fun c => decide (c.id = i) && g c)).length =
        (match lookupLast comments i with
         | some c => if g c then 1 else 0
         | none => 0) := by
  intro comments
  induction comments with
  | nil => intro _; simp [lookupLast]
  | cons a l ih =>
    intro h
    rw [List.map_cons, List.nodup_cons] at h
    by_cases hai : a.id = i
    · have hnone : ∀ c ∈ l, ¬(c.id = i) := by
        intro c hc hci
        apply h.1
        have hac : a.id = c.id := by rw [hai, hci]
        rw [hac]
        exact List.mem_map_of_mem (·.id) hc
      have hfl : l.filter (fun c => decide (c.id = i)) = [] :=
        List.filter_eq_nil_iff.2 (by simpa using hnone)
      have hfl' : l.filter (fun c => decide (c.id = i) && g c) = [] := by
        refine List.filter_eq_nil_iff.2 ?_
        intro c hc
        simp [hnone c hc]
      have hlook : lookupLast (a :: l) i = some a := by
        simp [lookupLast, List.filter_cons, hai, hfl]
      rw [hlook, List.filter_cons]
      cases hg : g a <;> simp [hg, hai, hfl']
    · have hlook : lookupLast (a :: l) i = lookupLast l i := by
        simp [lookupLast, List.filter_cons, hai]
      rw [hlook, List.filter_cons]
      simpa [hai] using ih h.2

/-- Occurrences of an id among the (sorted) roots, under distinct ids. -/
theorem countOcc_roots (comments : List DbComment)
    (h : (comments.map (·.id)).Nodup) (i : Int) :
    countOcc i (buildCommentThreads comments).roots =
      (match lookupLast comments i with
       | some c => if resolvedParent comments c = none then 1 else 0
       | none => 0) := by
  have hperm := jsSortByDate_perm comments (linkPass comments).1
  rw [show (buildCommentThreads comments).roots =
        jsSortByDate comments (linkPass comments).1 from rfl,
      countOcc_perm hperm, linkPass_fst, countOcc_map_id, List.filter_filter,
      length_filter_id_of_nodup (fun c => (resolvedParent comments c).isNone) i comments h]
  cases hl : lookupLast comments i with
  | none => rfl
  | some c => cases hrp : resolvedParent comments c <;> simp [hrp, Option.isNone]

/-- Occurrences of an id in any (sorted) replies list, under distinct ids:
`k` occurs in the replies of `j` exactly once when `j` is the resolved
parent of `k`'s node, and never otherwise. -/
theorem countOcc_replies (comments : List DbComment)
    (h : (comments.map (·.id)).Nodup) (k j : Int) :
    countOcc k ((buildCommentThreads comments).replies j) =
      (if parentOfId comments k = some j then 1 else 0) := by
  have hperm := jsSortByDate_perm comments ((linkPass comments).2 j)
  rw [show (buildCommentThreads comments).replies j =
        jsSortByDate comments ((linkPass comments).2 j) from rfl,
      countOcc_perm hperm, linkPass_snd, countOcc_map_id, List.filter_filter,
      length_filter_id_of_nodup (fun c => decide (resolvedParent comments c = some j)) k comments h]
  cases hl : lookupLast comments k with
  | none => simp [parentOfId, hl]
  | some c =>
    simp only [parentOfId, hl]
    by_cases hr : resolvedParent comments c = some j <;> simp [hr]

/-! ## The parent chain -/

theorem hasId_iff (comments : List DbComment) (p : Int) :
    hasId comments p ↔ p ∈ comments.map (·.id) := by
  simp [hasId, List.mem_map]

theorem resolvedParent_some {comments : List DbComment} {c : DbComment} {p : Int}
    (h : resolvedParent comments c = some p) :
    c.parent_comment_id = some p ∧ p ≠ 0 ∧ hasId comments p := by
  unfold resolvedParent at h
  cases hpc : c.parent_comment_id with
  | none => rw [hpc] at h; exact absurd h (by simp)
  | some q =>
    rw [hpc] at h
    replace h : (if q ≠ 0 ∧ hasId comments q then some q else none) = some p := h
    by_cases hc : q ≠ 0 ∧ hasId comments q
    · rw [if_pos hc] at h
      cases h
      exact ⟨rfl, hc⟩
    · rw [if_neg hc] at h
      exact absurd h (by simp)

theorem lookupLast_eq_some {comments : List DbComment} {i : Int} {c : DbComment}
    (h : lookupLast comments i = some c) : c ∈ comments ∧ c.id = i := by
  unfold lookupLast at h
  have hc := List.mem_of_mem_getLast? h
  have := List.mem_filter.1 hc
  exact ⟨this.1, by simpa using this.2⟩

theorem lookupLast_eq_none {comments : List DbComment} {i : Int}
    (h : i ∉ comments.map (·.id)) : lookupLast comments i = none := by
  unfold lookupLast
  have : comments.filter (fun c => decide (c.id = i)) = [] := by
    refine List.filter_eq_nil_iff.2 ?_
    intro c hc hci
    exact h (by simpa using ⟨c, hc, by simpa using hci⟩)
  rw [this]
  rfl

theorem lookupLast_of_mem {comments : List DbComment} {i : Int}
    (h : i ∈ comments.map (·.id)) :
    ∃ c, lookupLast comments i = some c ∧ c ∈ comments ∧ c.id = i := by
  cases hl : lookupLast comments i with
  | none =>
    obtain ⟨c, hc, hci⟩ := List.mem_map.1 h
    unfold lookupLast at hl
    rw [List.getLast?_eq_none_iff] at hl
    have : c ∈ comments.filter (fun c => decide (c.id = i)) :=
      List.mem_filter.2 ⟨hc, by simpa using hci⟩
    rw [hl] at this
    exact absurd this (List.not_mem_nil c)
  | some c => exact ⟨c, rfl, lookupLast_eq_some hl⟩

theorem parentOfId_of_not_mem {comments : List DbComment} {i : Int}
    (h : i ∉ comments.map (·.id)) : parentOfId comments i = none := by
  simp [parentOfId, lookupLast_eq_none h]

theorem parentOfId_mem {comments : List DbComment} {i p : Int}
    (h : parentOfId comments i = some p) : p ∈ comments.map (·.id) := by
  unfold parentOfId at h
  cases hl : lookupLast comments i with
  | none => rw [hl] at h; exact absurd h (by simp)
  | some c =>
    rw [hl] at h
    exact (hasId_iff comments p).1 (resolvedParent_some h).2.2

theorem rootDist_succ_none {comments : List DbComment} {i : Int}
    (hp : parentOfId comments i = none) (n : Nat) :
    rootDist comments (n + 1) i = some 0 := by
  rw [rootDist, hp]

theorem rootDist_succ_some {comments : List DbComment} {i p : Int}
    (hp : parentOfId comments i = some p) (n : Nat) :
    rootDist comments (n + 1) i = (rootDist comments n p).map Nat.succ := by
  rw [rootDist, hp]

theorem rootDist_lt {comments : List DbComment} :
    ∀ n i d, rootDist comments n i = some d → d < n := by
  intro n
  induction n with
  | zero => intro i d h; simp [rootDist] at h
  | succ n ih =>
    intro i d h
    cases hp : parentOfId comments i with
    | none =>
      rw [rootDist_succ_none hp] at h
      have : d = 0 := by simpa using h.symm
      omega
    | some p =>
      rw [rootDist_succ_some hp] at h
      cases he : rootDist comments n p with
      | none => rw [he] at h; simp at h
      | some e =>
        rw [he] at h
        have hd : e + 1 = d := by simpa using h
        have := ih p e he
        omega

theorem rootDist_mono {comments : List DbComment} :
    ∀ n m i d, n ≤ m → rootDist comments n i = some d →
      rootDist comments m i = some d := by
  intro n
  induction n with
  | zero => intro m i d _ h; simp [rootDist] at h
  | succ n ih =>
    intro m i d hnm h
    obtain ⟨m', rfl⟩ : ∃ m', m = m' + 1 := ⟨m - 1, by omega⟩
    cases hp : parentOfId comments i with
    | none =>
      rw [rootDist_succ_none hp] at h ⊢
      exact h
    | some p =>
      rw [rootDist_succ_some hp] at h ⊢
      cases he : rootDist comments n p with
      | none => rw [he] at h; simp at h
      | some e =>
        rw [ih m' p e (by omega) he]
        rw [he] at h
        exact h

theorem rootDist_parent {comments : List DbComment} {F : Nat} {i p : Int} {d : Nat}
    (h : rootDist comments F i = some d) (hp : parentOfId comments i = some p) :
    ∃ e, d = e + 1 ∧ rootDist comments F p = some e := by
  obtain ⟨F', rfl⟩ : ∃ F', F = F' + 1 := by
    cases F with
    | zero => simp [rootDist] at h
    | succ F' => exact ⟨F', rfl⟩
  rw [rootDist_succ_some hp] at h
  cases he : rootDist comments F' p with
  | none => rw [he] at h; simp at h
  | some e =>
    rw [he] at h
    exact ⟨e, by simpa using h.symm, rootDist_mono F' (F' + 1) p e (by omega) he⟩

theorem rootDist_root {comments : List DbComment} {F : Nat} {i : Int}
    (h : rootDist comments F i = some 0) : parentOfId comments i = none := by
  obtain ⟨F', rfl⟩ : ∃ F', F = F' + 1 := by
    cases F with
    | zero => simp [rootDist] at h
    | succ F' => exact ⟨F', rfl⟩
  cases hp : parentOfId comments i with
  | none => rfl
  | some p =>
    rw [rootDist_succ_some hp] at h
    cases he : rootDist comments F' p with
    | none => rw [he] at h; simp at h
    | some e => rw [he] at h; simp at h

theorem parentsList_of_none {comments : List DbComment} {i : Int}
    (hp : parentOfId comments i = none) :
    ∀ n, parentsList comments n i = [] := by
  intro n
  cases n with
  | zero => rfl
  | succ n => simp [parentsList, hp]

theorem parentsList_of_some {comments : List DbComment} {i p : Int}
    (hp : parentOfId comments i = some p) :
    ∀ n, parentsList comments n i = chain comments n p := by
  intro n
  cases n with
  | zero => rfl
  | succ n => simp [parentsList, chain, hp]

theorem mem_parentsList_rootDist {comments : List DbComment} {F : Nat} :
    ∀ n i d j, rootDist comments F i = some d → j ∈ parentsList comments n i →
      ∃ e, rootDist comments F j = some e ∧ e < d := by
  intro n
  induction n with
  | zero => intro i d j _ hj; simp [parentsList] at hj
  | succ n ih =>
    intro i d j h hj
    cases hp : parentOfId comments i with
    | none => rw [parentsList_of_none hp] at hj; exact absurd hj (List.not_mem_nil j)
    | some p =>
      simp only [parentsList, hp] at hj
      obtain ⟨e, rfl, hep⟩ := rootDist_parent h hp
      rcases List.mem_cons.1 hj with rfl | hj'
      · exact ⟨e, hep, by omega⟩
      · obtain ⟨e', he', hlt⟩ := ih p e j hep hj'
        exact ⟨e', he', by omega⟩

theorem not_mem_parentsList_self {comments : List DbComment} {F : Nat} {j : Int} {d : Nat}
    (h : rootDist comments F j = some d) :
    ∀ n, j ∉ parentsList comments n j := by
  intro n hj
  obtain ⟨e, he, hlt⟩ := mem_parentsList_rootDist n j d j h hj
  rw [h] at he
  cases he
  omega

theorem parentsList_nodup {comments : List DbComment} {F : Nat} :
    ∀ n i d, rootDist comments F i = some d → (parentsList comments n i).Nodup := by
  intro n
  induction n with
  | zero => intro i d _; simp [parentsList]
  | succ n ih =>
    intro i d h
    cases hp : parentOfId comments i with
    | none => rw [parentsList_of_none hp]; simp
    | some p =>
      obtain ⟨e, rfl, hep⟩ := rootDist_parent h hp
      simp only [parentsList, hp, List.nodup_cons]
      exact ⟨not_mem_parentsList_self hep n, ih p e hep⟩

theorem chain_nodup {comments : List DbComment} {F : Nat} {i : Int} {d : Nat}
    (h : rootDist comments F i = some d) :
    ∀ n, (chain comments n i).Nodup := by
  intro n
  cases n with
  | zero => simp [chain]
  | succ n =>
    simp only [chain, List.nodup_cons]
    exact ⟨not_mem_parentsList_self h n, parentsList_nodup n i d h⟩

/-! ## Summation lemmas -/

theorem length_filter_mem_split (k0 : Int) (m : List Int) (hk0 : k0 ∉ m) :
    ∀ l : List Int, (l.filter (fun x => decide (x ∈ k0 :: m))).length =
      countOcc k0 l + (l.filter (fun x => decide (x ∈ m))).length := by
  intro l
  induction l with
  | nil => simp [countOcc]
  | cons a l ih =>
    rw [List.filter_cons, List.filter_cons, countOcc_cons]
    by_cases h1 : a = k0
    · rw [if_pos (show decide (a ∈ k0 :: m) = true by simp [h1]),
          if_neg (show ¬decide (a ∈ m) = true by simp [h1, hk0]),
          if_pos h1]
      simp only [List.length_cons, ih]
      omega
    · by_cases h2 : a ∈ m
      · rw [if_pos (show decide (a ∈ k0 :: m) = true by simp [h2]),
            if_pos (show decide (a ∈ m) = true by simp [h2]),
            if_neg h1]
        simp only [List.length_cons, ih]
        omega
      · rw [if_neg (show ¬decide (a ∈ k0 :: m) = true by simp [h1, h2]),
            if_neg (show ¬decide (a ∈ m) = true by simp [h2]),
            if_neg h1]
        simp only [ih]
        omega

theorem sum_countOcc_eq_length_filter (l : List Int) :
    ∀ m : List Int, m.Nodup →
      (m.map (fun k => countOcc k l)).sum =
        (l.filter (fun x => decide (x ∈ m))).length := by
  intro m
  induction m with
  | nil => simp
  | cons k0 m ih =>
    intro h
    rw [List.nodup_cons] at h
    rw [List.map_cons, List.sum_cons, ih h.2, length_filter_mem_split k0 m h.1 l]

theorem sum_ite_mem_eq_length_filter (m : List Int) :
    ∀ l : List Int, (l.map (fun k => if k ∈ m then 1 else 0)).sum =
      (l.filter (fun x => decide (x ∈ m))).length := by
  intro l
  induction l with
  | nil => simp
  | cons a l ih =>
    rw [List.map_cons, List.sum_cons, List.filter_cons]
    by_cases h : a ∈ m
    · simp [h, ih]; omega
    · simp [h, ih]

/-! ## The forest traversal -/

theorem forestIds_eq_flatMap (replies : Int → List Int) (n : Nat) (l : List Int) :
    forestIds replies n l = l.flatMap (fun k => forestIds replies n [k]) := by
  cases n with
  | zero => simp [forestIds]
  | succ n => simp [forestIds]

/-- Summing, along the ancestor chain of `i`, the indicator of having `j`
as resolved parent: exactly the indicator of `j` being a strict ancestor
of `i`. -/
theorem sum_parentOf_chain (comments : List DbComment)
    (hAC : ∀ k ∈ comments.map (·.id), (rootDist comments comments.length k).isSome) :
    ∀ n i j, ((chain comments n i).map
        (fun k => if parentOfId comments k = some j then 1 else 0)).sum =
      if j ∈ parentsList comments n i then 1 else 0 := by
  intro n
  induction n with
  | zero => intro i j; simp [chain, parentsList]
  | succ n ih =>
    intro i j
    rw [show chain comments (n + 1) i = i :: parentsList comments n i from rfl,
        List.map_cons, List.sum_cons]
    cases hp : parentOfId comments i with
    | none =>
      rw [parentsList_of_none hp n, parentsList_of_none hp (n + 1)]
      simp [hp]
    | some p =>
      rw [parentsList_of_some hp n, ih p j,
          show parentsList comments (n + 1) i = p :: parentsList comments n p by
            simp [parentsList, hp]]
      have hpmem : p ∈ comments.map (·.id) := parentOfId_mem hp
      obtain ⟨dp, hdp⟩ := Option.isSome_iff_exists.1 (hAC p hpmem)
      have hnp := not_mem_parentsList_self hdp n
      by_cases hj : j = p
      · subst hj
        simp [hp, hnp]
      · have hj' : p ≠ j := fun h => hj h.symm
        simp [hp, hj', List.mem_cons, hj]

/-- The node of `i` is listed by the depth-`n` traversal of the subtree of
`j` exactly once when `j` lies on `i`'s ancestor chain within `n` steps,
and not at all otherwise. -/
theorem countOcc_forestIds_single (comments : List DbComment)
    (hN : (comments.map (·.id)).Nodup)
    (hAC : ∀ k ∈ comments.map (·.id), (rootDist comments comments.length k).isSome)
    {i : Int} (hi : i ∈ comments.map (·.id)) :
    ∀ n j, countOcc i (forestIds (buildCommentThreads comments).replies n [j]) =
      if j ∈ chain comments n i then 1 else 0 := by
  obtain ⟨di, hdi⟩ := Option.isSome_iff_exists.1 (hAC i hi)
  intro n
  induction n with
  | zero => intro j; simp [forestIds, chain, countOcc]
  | succ n ih =>
    intro j
    have h1 : forestIds (buildCommentThreads comments).replies (n + 1) [j] =
        j :: forestIds (buildCommentThreads comments).replies n
          ((buildCommentThreads comments).replies j) := by
      simp [forestIds]
    rw [h1, countOcc_cons, forestIds_eq_flatMap, countOcc_flatMap]
    have h2 : ((buildCommentThreads comments).replies j).map
        (fun k => countOcc i (forestIds (buildCommentThreads comments).replies n [k])) =
        ((buildCommentThreads comments).replies j).map
          (fun k => if k ∈ chain comments n i then 1 else 0) :=
      List.map_congr_left (fun k _ => ih k)
    rw [h2, sum_ite_mem_eq_length_filter,
        ← sum_countOcc_eq_length_filter _ _ (chain_nodup hdi n)]
    have h3 : (chain comments n i).map
        (fun k => countOcc k ((buildCommentThreads comments).replies j)) =
        (chain comments n i).map
          (fun k => if parentOfId comments k = some j then 1 else 0) :=
      List.map_congr_left (fun k _ => countOcc_replies comments hN k j)
    rw [h3, sum_parentOf_chain comments hAC n i j]
    have hni : i ∉ parentsList comments n i := not_mem_parentsList_self hdi n
    rw [show chain comments (n + 1) i = i :: parentsList comments n i from rfl]
    by_cases hji : j = i
    · subst hji; simp [hni]
    · simp [List.mem_cons, hji]

/-- Exactly one entry of a complete ancestor chain is pushed to the root
list: its topmost entry. -/
theorem sum_countOcc_roots_chain (comments : List DbComment)
    (hN : (comments.map (·.id)).Nodup) :
    ∀ d n i, i ∈ comments.map (·.id) →
      rootDist comments comments.length i = some d → d < n →
      ((chain comments n i).map
        (fun k => countOcc k (buildCommentThreads comments).roots)).sum = 1 := by
  intro d
  induction d with
  | zero =>
    intro n i hi hd hn
    obtain ⟨n', rfl⟩ : ∃ n', n = n' + 1 := ⟨n - 1, by omega⟩
    have hp := rootDist_root hd
    obtain ⟨c, hc, _, _⟩ := lookupLast_of_mem hi
    have hres : resolvedParent comments c = none := by
      simpa [parentOfId, hc] using hp
    rw [show chain comments (n' + 1) i = i :: parentsList comments n' i from rfl,
        parentsList_of_none hp n', List.map_cons, List.sum_cons,
        countOcc_roots comments hN i, hc]
    simp [hres]
  | succ e ih =>
    intro n i hi hd hn
    obtain ⟨n', rfl⟩ : ∃ n', n = n' + 1 := ⟨n - 1, by omega⟩
    cases hp : parentOfId comments i with
    | none =>
      exfalso
      obtain ⟨M, hM⟩ : ∃ M, comments.length = M + 1 := by
        cases hcl : comments.length with
        | zero =>
          rw [List.length_eq_zero] at hcl
          subst hcl
          simp at hi
        | succ M => exact ⟨M, rfl⟩
      rw [hM, rootDist_succ_none hp M] at hd
      simp at hd
    | some p =>
      obtain ⟨e', heq, hep⟩ := rootDist_parent hd hp
      have he' : e' = e := by omega
      subst he'
      have hpmem := parentOfId_mem hp
      obtain ⟨c, hc, _, _⟩ := lookupLast_of_mem hi
      have hres : resolvedParent comments c = some p := by
        simpa [parentOfId, hc] using hp
      have hz : countOcc i (buildCommentThreads comments).roots = 0 := by
        rw [countOcc_roots comments hN i, hc]
        simp [hres]
      rw [show chain comments (n' + 1) i = i :: parentsList comments n' i from rfl,
          parentsList_of_some hp n', List.map_cons, List.sum_cons, hz,
          ih n' p hpmem hep (by omega)]

/-! ## Claims -/

/-- C1, counterexample.  As stated — over *every* input list — the claim
fails: a comment that is its own parent is pushed into its own `replies`
array and never into `rootComments`, so it occurs nowhere in the output
forest; and when two records share an id, the single node the map keeps
for that id is pushed twice, so it occurs twice among the roots. -/
theorem C1_counterexample :
    countOcc 1 (forestIds (buildCommentThreads [⟨1, some 1, 10⟩]).replies 1
        (buildCommentThreads [⟨1, some 1, 10⟩]).roots) = 0 ∧
    countOcc 1 (forestIds (buildCommentThreads [⟨1, none, 5⟩, ⟨1, none, 7⟩]).replies 2
        (buildCommentThreads [⟨1, none, 5⟩, ⟨1, none, 7⟩]).roots) = 2 := by
  decide

/-- C1 (amended): for every input list whose ids are pairwise distinct and
whose resolved-parent chains all terminate (no reference cycle),
`buildCommentThreads` places every input comment in exactly one position in
the output forest: each input comment's node occurs exactly once in the
preorder traversal of the returned roots and their transitive replies. -/
theorem C1_theorem (comments : List DbComment)
    (hN : (comments.map (·.id)).Nodup)
    (hAC : ∀ k ∈ comments.map (·.id), (rootDist comments comments.length k).isSome) :
    ∀ c ∈ comments, countOcc c.id
      (forestIds (buildCommentThreads comments).replies comments.length
        (buildCommentThreads comments).roots) = 1 := by
  intro c hc
  have hi : c.id ∈ comments.map (·.id) := List.mem_map_of_mem (·.id) hc
  obtain ⟨d, hd⟩ := Option.isSome_iff_exists.1 (hAC c.id hi)
  have hdlt := rootDist_lt comments.length c.id d hd
  rw [forestIds_eq_flatMap, countOcc_flatMap]
  have h2 : ((buildCommentThreads comments).roots).map
      (fun j => countOcc c.id
        (forestIds (buildCommentThreads comments).replies comments.length [j])) =
      ((buildCommentThreads comments).roots).map
        (fun j => if j ∈ chain comments comments.length c.id then 1 else 0) :=
    List.map_congr_left
      (fun j _ => countOcc_forestIds_single comments hN hAC hi comments.length j)
  rw [h2, sum_ite_mem_eq_length_filter,
      ← sum_countOcc_eq_length_filter _ _ (chain_nodup hd comments.length)]
  exact sum_countOcc_roots_chain comments hN d comments.length c.id hi hd hdlt

/-- C1, witness: the amended theorem applied to a concrete three-comment
thread. -/
theorem C1_witness :
    countOcc 2 (forestIds
      (buildCommentThreads [⟨1, none, 10⟩, ⟨2, some 1, 20⟩, ⟨3, none, 30⟩]).replies 3
      (buildCommentThreads [⟨1, none, 10⟩, ⟨2, some 1, 20⟩, ⟨3, none, 30⟩]).roots) = 1 :=
  C1_theorem [⟨1, none, 10⟩, ⟨2, some 1, 20⟩, ⟨3, none, 30⟩] (by decide) (by decide)
    ⟨2, some 1, 20⟩ (by decide)

/-- C2 (confirmed): a comment whose `parent_comment_id` is null, or does
not equal the id of any comment of the same input list, appears as a root
of the forest returned by `buildCommentThreads`. -/
theorem C2_theorem (comments : List DbComment) (c : DbComment) (hc : c ∈ comments)
    (h : c.parent_comment_id = none ∨ ∀ c' ∈ comments, some c'.id ≠ c.parent_comment_id) :
    c.id ∈ (buildCommentThreads comments).roots := by
  have hrp : resolvedParent comments c = none := by
    unfold resolvedParent
    cases hpc : c.parent_comment_id with
    | none => rfl
    | some p =>
      show (if p ≠ 0 ∧ hasId comments p then some p else none) = none
      rcases h with h | h
      · rw [hpc] at h; exact absurd h (by simp)
      · have hno : ¬hasId comments p := by
          rintro ⟨c', hc', hid⟩
          exact h c' hc' (by rw [hid, hpc])
        rw [if_neg (fun hand => hno hand.2)]
  have hmem : c.id ∈ (linkPass comments).1 := by
    rw [linkPass_fst]
    refine List.mem_map_of_mem (·.id) (List.mem_filter.2 ⟨hc, ?_⟩)
    simp [hrp]
  exact ((jsSortByDate_perm comments (linkPass comments).1).mem_iff).2 hmem

/-- C2, witness: a single comment with a dangling parent reference is a
root. -/
theorem C2_witness : (5 : Int) ∈ (buildCommentThreads [⟨5, some 9, 1⟩]).roots :=
  C2_theorem [⟨5, some 9, 1⟩] ⟨5, some 9, 1⟩ (by decide)
    (Or.inr (by decide))

/-- C3, counterexample.  The claim fails at parent id `0`: the linking test
`comment.parent_comment_id && commentMap[...]` treats the number `0` as
falsy, so a comment whose parent id is `0` becomes a root even though a
comment with id `0` is present — it never reaches that parent's `replies`. -/
theorem C3_counterexample :
    (2 : Int) ∉ (buildCommentThreads [⟨0, none, 10⟩, ⟨2, some 0, 20⟩]).replies 0 ∧
    (buildCommentThreads [⟨0, none, 10⟩, ⟨2, some 0, 20⟩]).replies 0 = [] ∧
    (buildCommentThreads [⟨0, none, 10⟩, ⟨2, some 0, 20⟩]).roots = [2, 0] := by
  decide

/-- C3 (amended): a comment whose `parent_comment_id` is nonzero and equals
the id of another comment of the same input list appears in that parent's
`replies` list in the forest returned by `buildCommentThreads`. -/
theorem C3_theorem (comments : List DbComment) (c : DbComment) (hc : c ∈ comments)
    (p : Int) (hp : c.parent_comment_id = some p) (hp0 : p ≠ 0)
    (h : ∃ c' ∈ comments, c' ≠ c ∧ c'.id = p) :
    c.id ∈ (buildCommentThreads comments).replies p := by
  have hhas : hasId comments p := by
    obtain ⟨c', hc', _, hid⟩ := h
    exact ⟨c', hc', hid⟩
  have hrp : resolvedParent comments c = some p := by
    unfold resolvedParent
    rw [hp]
    show (if p ≠ 0 ∧ hasId comments p then some p else none) = some p
    rw [if_pos ⟨hp0, hhas⟩]
  have hmem : c.id ∈ (linkPass comments).2 p := by
    rw [linkPass_snd]
    refine List.mem_map_of_mem (·.id) (List.mem_filter.2 ⟨hc, ?_⟩)
    simp [hrp]
  exact ((jsSortByDate_perm comments ((linkPass comments).2 p)).mem_iff).2 hmem

/-- C3, witness: a reply to an existing nonzero id lands in that parent's
replies. -/
theorem C3_witness : (2 : Int) ∈ (buildCommentThreads [⟨1, none, 10⟩, ⟨2, some 1, 20⟩]).replies 1 :=
  C3_theorem [⟨1, none, 10⟩, ⟨2, some 1, 20⟩] ⟨2, some 1, 20⟩ (by decide) 1 rfl
    (by decide) ⟨⟨1, none, 10⟩, by decide, by decide, rfl⟩

/-- C4 (confirmed): the root list returned by `buildCommentThreads` is
sorted newest-first by the nodes' creation timestamps, and so is the
`replies` list of every node, independently. -/
theorem C4_theorem (comments : List DbComment) :
    ((buildCommentThreads comments).roots).Pairwise
      (fun a b => keyOf comments b ≤ keyOf comments a) ∧
    ∀ p, ((buildCommentThreads comments).replies p).Pairwise
      (fun a b => keyOf comments b ≤ keyOf comments a) :=
  ⟨jsSortByDate_pairwise comments _, fun _ => jsSortByDate_pairwise comments _⟩

/-- C5 (confirmed): on `[{1, null, t1}, {2, parent 1, t2}, {3, null, t3}]`
with `t3 > t2 > t1`, the forest has exactly the roots `[3, 1]`, comment 1's
replies are exactly `[2]`, and the other replies lists are empty. -/
theorem C5_theorem (t1 t2 t3 : Int) (h12 : t1 < t2) (h23 : t2 < t3) :
    (buildCommentThreads [⟨1, none, t1⟩, ⟨2, some 1, t2⟩, ⟨3, none, t3⟩]).roots = [3, 1] ∧
    (buildCommentThreads [⟨1, none, t1⟩, ⟨2, some 1, t2⟩, ⟨3, none, t3⟩]).replies 1 = [2] ∧
    (buildCommentThreads [⟨1, none, t1⟩, ⟨2, some 1, t2⟩, ⟨3, none, t3⟩]).replies 2 = [] ∧
    (buildCommentThreads [⟨1, none, t1⟩, ⟨2, some 1, t2⟩, ⟨3, none, t3⟩]).replies 3 = [] := by
  have h13 : t1 < t3 := lt_trans h12 h23
  refine ⟨?_, ?_, ?_, ?_⟩ <;>
    simp [buildCommentThreads, jsSortByDate, linkPass, linkStep, resolvedParent,
      hasId, lookupLast, keyOf, insertDesc, h12, h23, h13]

/-- C5, witness: the example instantiated at concrete timestamps. -/
theorem C5_witness :
    (buildCommentThreads [⟨1, none, 10⟩, ⟨2, some 1, 20⟩, ⟨3, none, 30⟩]).roots = [3, 1] ∧
    (buildCommentThreads [⟨1, none, 10⟩, ⟨2, some 1, 20⟩, ⟨3, none, 30⟩]).replies 1 = [2] ∧
    (buildCommentThreads [⟨1, none, 10⟩, ⟨2, some 1, 20⟩, ⟨3, none, 30⟩]).replies 2 = [] ∧
    (buildCommentThreads [⟨1, none, 10⟩, ⟨2, some 1, 20⟩, ⟨3, none, 30⟩]).replies 3 = [] :=
  C5_theorem 10 20 30 (by decide) (by decide)

/-- C6 (confirmed): when the storage upload succeeds and the database
insert of the proof row fails, `handleUploadProof` issues a storage
`remove` of the just-uploaded object, at the very file path it uploaded,
before terminating in the error state; and its behaviour is identical for
every outcome of that rollback delete, whose result the code never
inspects. -/
theorem C6_theorem (name proofDate : String) (now : Nat) (url : String) (r r' : Bool) :
    handleUploadProof (some name) proofDate now true (some url) false r =
      ([ProofUploadEffect.storageUpload
          ("proof-" ++ toString now ++ "." ++ lastSplitSegment name '.'),
        ProofUploadEffect.getPublicUrl
          ("proof-" ++ toString now ++ "." ++ lastSplitSegment name '.'),
        ProofUploadEffect.dbInsert url (if proofDate = "" then none else some proofDate),
        ProofUploadEffect.storageRemove
          ["proof-" ++ toString now ++ "." ++ lastSplitSegment name '.']], false) ∧
    handleUploadProof (some name) proofDate now true (some url) false r =
      handleUploadProof (some name) proofDate now true (some url) false r' := by
  constructor
  · simp [handleUploadProof]
  · rfl

/-- C8 (confirmed): the change-feed INSERT handler leaves the whole
`CommentList` state unchanged and performs neither a state update nor a
fetch — its only effects are console logs. -/
theorem C8_theorem (payload : DbComment) (st : CommentListState) :
    applyCLEffects (commentsChannelInsertHandler payload) st = st ∧
    (commentsChannelInsertHandler payload).all
      (fun e => !e.isStateUpdate && !e.isFetch) = true :=
  ⟨rfl, rfl⟩

/-- C9 (confirmed): when the submitted text is missing, empty, or
whitespace-only, `handleSubmitComment` returns with the component state
untouched and no insert row issued — a non-blank text is required for an
insert to be attempted. -/
theorem C9_theorem (user : Option String) (categoryId itemId parentId : Option Int)
    (replyInput : Option String) (insertOk : Bool) (st : CommentListState)
    (h : blankGuard (submittedCommentText parentId replyInput st) = true) :
    handleSubmitComment user categoryId itemId parentId replyInput insertOk st =
      (st, none) := by
  unfold handleSubmitComment
  cases hs : submittedCommentText parentId replyInput st with
  | none => rfl
  | some t =>
    rw [hs] at h
    replace h : (t.isEmpty || (jsTrim t).isEmpty) = true := h
    simp [h]

/-- C9, witness: a whitespace-only main comment is rejected without any
state change. -/
theorem C9_witness :
    handleSubmitComment (some "u1") none none none none true
        ⟨[], false, "   ", false, false, none, false⟩ =
      (⟨[], false, "   ", false, false, none, false⟩, none) :=
  C9_theorem (some "u1") none none none none true
    ⟨[], false, "   ", false, false, none, false⟩ (by decide)

/-- The insert row `handleSubmitComment` issues, independent of the
outcome-dependent state bookkeeping. -/
theorem handleSubmitComment_snd (user : Option String)
    (categoryId itemId parentId : Option Int) (replyInput : Option String)
    (insertOk : Bool) (st : CommentListState) :
    (handleSubmitComment user categoryId itemId parentId replyInput insertOk st).2 =
      (match submittedCommentText parentId replyInput st with
       | none => none
       | some t =>
         if t.isEmpty || (jsTrim t).isEmpty then none
         else some
           { content := jsTrim t
             user_id :=
               if user.isNone ||
                   (match parentId with | some _ => false | none => st.isAnonymous) then
                 none
               else user
             parent_comment_id := parentId
             category_id := truthyIdOpt categoryId
             item_id := truthyIdOpt itemId }) := by
  unfold handleSubmitComment
  cases submittedCommentText parentId replyInput st with
  | none => rfl
  | some t =>
    by_cases hb : (t.isEmpty || (jsTrim t).isEmpty) = true
    · simp [hb]
    · simp only [hb]
      cases insertOk <;> cases parentId <;> simp

/-- C10 (confirmed): the anonymous checkbox has no influence on the
identity attached to replies — for a logged-in user submitting a reply the
inserted `user_id` is the user's id in both the anonymous-on and
anonymous-off runs — and with no logged-in user the inserted `user_id` is
null whatever the flag. -/
theorem C10_theorem :
    (∀ (uid : String) (categoryId itemId : Option Int) (pid : Int)
        (replyInput : Option String) (insertOk : Bool) (st : CommentListState)
        (anonA anonB : Bool),
      (handleSubmitComment (some uid) categoryId itemId (some pid) replyInput insertOk
          { st with isAnonymous := anonA }).2 =
        (handleSubmitComment (some uid) categoryId itemId (some pid) replyInput insertOk
          { st with isAnonymous := anonB }).2 ∧
      ∀ r, (handleSubmitComment (some uid) categoryId itemId (some pid) replyInput insertOk
          { st with isAnonymous := anonA }).2 = some r → r.user_id = some uid) ∧
    (∀ (categoryId itemId parentId : Option Int) (replyInput : Option String)
        (insertOk : Bool) (st : CommentListState) (anon : Bool)
        (r : InsertCommentRow),
      (handleSubmitComment none categoryId itemId parentId replyInput insertOk
          { st with isAnonymous := anon }).2 = some r → r.user_id = none) := by
  constructor
  · intro uid categoryId itemId pid replyInput insertOk st anonA anonB
    constructor
    · rw [handleSubmitComment_snd, handleSubmitComment_snd]
      simp [submittedCommentText]
    · intro r hr
      rw [handleSubmitComment_snd] at hr
      cases replyInput with
      | none => exact absurd hr (by simp [submittedCommentText])
      | some t =>
        simp only [submittedCommentText] at hr
        by_cases hb : (t.isEmpty || (jsTrim t).isEmpty) = true
        · simp [hb] at hr
        · simp [hb] at hr
          rw [← hr]
  · intro categoryId itemId parentId replyInput insertOk st anon r hr
    rw [handleSubmitComment_snd] at hr
    cases hs : submittedCommentText parentId replyInput { st with isAnonymous := anon } with
    | none => rw [hs] at hr; exact absurd hr (by simp)
    | some t =>
      rw [hs] at hr
      by_cases hb : (t.isEmpty || (jsTrim t).isEmpty) = true
      · simp [hb] at hr
      · simp [hb] at hr
        rw [← hr]

/-- C10, witness: a reply by user `u1` carries `user_id = u1` with the
anonymous flag on and off alike, and an anonymous visitor's comment
carries no user id. -/
theorem C10_witness :
    (handleSubmitComment (some "u1") none none (some 4) (some "hey") true
        ⟨[], false, "", false, true, none, false⟩).2 =
      (handleSubmitComment (some "u1") none none (some 4) (some "hey") true
        ⟨[], false, "", false, false, none, false⟩).2 ∧
    (⟨"hey", some "u1", some 4, none, none⟩ : InsertCommentRow).user_id = some "u1" ∧
    (⟨"hey", none, none, none, none⟩ : InsertCommentRow).user_id = none :=
  ⟨(C10_theorem.1 "u1" none none 4 (some "hey") true
      ⟨[], false, "", false, true, none, false⟩ true false).1,
   (C10_theorem.1 "u1" none none 4 (some "hey") true
      ⟨[], false, "", false, true, none, false⟩ true false).2
      ⟨"hey", some "u1", some 4, none, none⟩ (by decide),
   C10_theorem.2 none none none none true
      ⟨[], false, "hey", false, false, none, false⟩ false
      ⟨"hey", none, none, none, none⟩ (by decide)⟩

/-! ## String helpers for the storage-path claims -/

theorem strStartsWith_append (a b : String) : strStartsWith (a ++ b) a = true := by
  rw [strStartsWith]
  show a.toList.isPrefixOf (a.toList ++ b.toList) = true
  exact List.isPrefixOf_iff_prefix.2 (List.prefix_append a.toList b.toList)

theorem strDropChars_append (a b : String) : strDropChars (a ++ b) a.length = b := by
  rw [strDropChars]
  show String.mk ((a.toList ++ b.toList).drop a.toList.length) = b
  rw [List.drop_left]
  rfl

theorem jsIndexOf_append_not_mem {x : String} :
    ∀ pre : List String, x ∉ pre → ∀ post,
      jsIndexOf x (pre ++ x :: post) = some pre.length := by
  intro pre
  induction pre with
  | nil => intro _ post; simp [jsIndexOf]
  | cons a l ih =>
    intro h post
    have ha : a ≠ x := fun e => h (e ▸ List.mem_cons_self a l)
    rw [List.cons_append, jsIndexOf, if_neg ha,
      ih (fun hm => h (List.mem_cons_of_mem a hm)) post]
    simp

theorem drop_append_cons (pre : List String) (x : String) (post : List String) :
    (pre ++ x :: post).drop (pre.length + 1) = post := by
  rw [show pre ++ x :: post = (pre ++ [x]) ++ post by simp,
      show pre.length + 1 = (pre ++ [x]).length by simp]
  exact List.drop_left _ _

/-- C7, counterexample.  The object path passed to the storage `remove` is
not always "exactly the remainder of the URL path after the bucket
prefix": `deleteStoredImage` percent-decodes the remainder (`a%20b.png`
becomes `a b.png`), and `handleDeleteProof` splits the whole URL at the
first occurrence of the bucket name, which precedes the path when the host
itself is named like the bucket. -/
theorem C7_counterexample :
    deleteStoredImageObjectPath
        "/storage/v1/object/public/programminglistbuckets/a%20b.png" = some "a b.png" ∧
    "a b.png" ≠ "a%20b.png" ∧
    handleDeleteProofObjectPath
        "https://proof-images/storage/v1/object/public/proof-images/x.png" =
      some "storage/v1/object/public/proof-images/x.png" ∧
    "storage/v1/object/public/proof-images/x.png" ≠ "x.png" := by
  decide

/-- C7 (amended): on a URL path of the form `<bucket prefix> ++ rest`,
`deleteImage` passes exactly `rest` to the storage `remove` (and derives
no path at all when the path does not start with its prefix);
`deleteStoredImage` passes the percent-decoding of `rest` (when defined
and non-empty); and `handleDeleteProof` passes the `/`-join of the URL's
segments after the first occurrence of its bucket name, which is the path
remainder exactly when no earlier segment of the URL equals the bucket
name. -/
theorem C7_theorem :
    (∀ rest : String, rest ≠ "" →
      deleteImageObjectPath ("/storage/v1/object/public/images/" ++ rest) = some rest) ∧
    (∀ pathname : String,
      strStartsWith pathname "/storage/v1/object/public/images/" = false →
      deleteImageObjectPath pathname = none) ∧
    (∀ rest fp : String, decodeURIComponent rest = some fp → fp ≠ "" →
      deleteStoredImageObjectPath
        ("/storage/v1/object/public/programminglistbuckets/" ++ rest) = some fp) ∧
    (∀ (url : String) (pre restSegs : List String),
      jsSplitChar url '/' =
        pre ++ ["storage", "v1", "object", "public", "proof-images"] ++ restSegs →
      "proof-images" ∉ pre → jsJoin "/" restSegs ≠ "" →
      handleDeleteProofObjectPath url = some (jsJoin "/" restSegs)) := by
  refine ⟨?_, ?_, ?_, ?_⟩
  · intro rest hrest
    rw [deleteImageObjectPath]
    rw [strStartsWith_append, if_pos rfl, strDropChars_append, if_neg hrest]
  · intro pathname h
    rw [deleteImageObjectPath]
    rw [h]
    rfl
  · intro rest fp hdec hfp
    rw [deleteStoredImageObjectPath]
    rw [strStartsWith_append, if_pos rfl, strDropChars_append, hdec]
    show (if fp = "" then none else some fp) = some fp
    rw [if_neg hfp]
  · intro url pre restSegs hsplit hpre hne
    rw [handleDeleteProofObjectPath, hsplit, jsSegmentsAfter]
    have hre : pre ++ ["storage", "v1", "object", "public", "proof-images"] ++ restSegs =
        (pre ++ ["storage", "v1", "object", "public"]) ++ "proof-images" :: restSegs := by
      simp
    have hnotmem : "proof-images" ∉ pre ++ ["storage", "v1", "object", "public"] := by
      intro hm
      rcases List.mem_append.1 hm with hm | hm
      · exact hpre hm
      · simp at hm
    rw [hre, jsIndexOf_append_not_mem _ hnotmem restSegs]
    show (if jsJoin "/" (((pre ++ ["storage", "v1", "object", "public"]) ++
        "proof-images" :: restSegs).drop
          ((pre ++ ["storage", "v1", "object", "public"]).length + 1)) = "" then none
      else some (jsJoin "/" (((pre ++ ["storage", "v1", "object", "public"]) ++
        "proof-images" :: restSegs).drop
          ((pre ++ ["storage", "v1", "object", "public"]).length + 1)))) =
      some (jsJoin "/" restSegs)
    rw [drop_append_cons, if_neg hne]

/-- C7, witness: the amended theorem evaluated at a plain path, a foreign
path, a percent-encoded path, and a well-formed proof-image URL. -/
theorem C7_witness :
    deleteImageObjectPath "/storage/v1/object/public/images/pics/cat.png" =
      some "pics/cat.png" ∧
    deleteImageObjectPath "/other/images/x.png" = none ∧
    deleteStoredImageObjectPath
      "/storage/v1/object/public/programminglistbuckets/a%20b.png" = some "a b.png" ∧
    handleDeleteProofObjectPath
      "https://h.supabase.co/storage/v1/object/public/proof-images/y.png" =
      some "y.png" :=
  ⟨C7_theorem.1 "pics/cat.png" (by decide),
   C7_theorem.2.1 "/other/images/x.png" (by decide),
   C7_theorem.2.2.1 "a%20b.png" "a b.png" (by decide) (by decide),
   C7_theorem.2.2.2 "https://h.supabase.co/storage/v1/object/public/proof-images/y.png"
     ["https:", "", "h.supabase.co"] ["y.png"] (by decide) (by decide) (by decide)⟩
